import Mathlib

/-!
Verification of the stratified sampling subsystem of `fetch_photos.py`.

The Python function `stratified_sample(cands, limit, min_rating, max_per_observer,
months, region, low_quality_frac, rng)` is embedded shallowly below.

Modelling conventions:
* Python `float` ratings and fractions become rationals (`ℚ`); Python `int` becomes `ℤ`.
* Python `Optional[T]` becomes `Option`; Python truthiness of optional strings and
  lists (`None` and empty both falsy) is modelled explicitly where the code relies
  on it (`not region`, `not c.region`, `not months`, `c.observer or "_unknown_"`,
  `x.quality_rank or 999999`).
* The seeded `random.Random` object becomes a stream `r : ℕ → ℕ` of drawn numbers
  together with a running counter; `rng.shuffle` becomes a stream-driven selection
  shuffle that permutes its input.  Any deterministic stream-driven permutation is a
  faithful abstraction of the in-place Fisher–Yates shuffle at the level of the
  properties considered here (length, multiset content, determinism in the seed).
* Python `list.sort(key=...)` is a stable sort; it is embedded as Mathlib's
  insertion sort over the reflexive total key order, which is stable, hence
  produces the identical list.
* Python slicing `l[:n]` (including negative `n`) is `pySlice`.
* Python `round` is banker's rounding (half to even), embedded as `pyRound` on `ℚ`.
-/

/-- A media candidate, mirroring the `Candidate` dataclass of `fetch_photos.py`
(fields `mlid, rating, observer, region, date, month, quality_rank, href`). -/
structure Candidate where
  mlid : String
  rating : Option ℚ
  observer : Option String
  region : Option String
  date : Option String
  month : Option ℤ
  quality_rank : Option ℤ
  href : Option String
deriving DecidableEq, Repr

/-- Python truthiness of an `Optional[str]`: `None` and `""` are falsy. -/
def strFalsy : Option String → Bool
  | none => true
  | some s => s == ""

/-- Lower-cased character list of a string, modelling Python `str.lower()`. -/
def lowerChars (s : String) : List Char := s.data.map Char.toLower

/-- Substring test, modelling the Python `in` operator on strings. -/
def containsSub (needle hay : List Char) : Bool :=
  hay.tails.any (fun t => needle.isPrefixOf t)

/-- Python truthiness of an `Optional[List[...]]`: `None` and `[]` are falsy. -/
def listFalsy {β : Type} : Option (List β) → Bool
  | none => true
  | some ms => ms.isEmpty

/-- The inner `ok_region` of `stratified_sample`:
`if not region: return True; if not c.region: return True;
return region.lower() in c.region.lower()`.
The `getD` defaults are never reached when the corresponding branch tests fail. -/
def ok_region (region : Option String) (c : Candidate) : Bool :=
  if strFalsy region then true
  else if strFalsy c.region then true
  else containsSub (lowerChars (region.getD "")) (lowerChars (c.region.getD ""))

/-- The inner `ok_month` of `stratified_sample`:
`if not months: return True; if c.month is None: return True;
return c.month in months`. -/
def ok_month (months : Option (List ℤ)) (c : Candidate) : Bool :=
  if listFalsy months then true
  else if c.month.isNone then true
  else (months.getD []).contains (c.month.getD 0)

/-- The rating conjunct of the filter: `c.rating is None or c.rating >= min_rating`. -/
def ok_rating (min_rating : ℚ) (c : Candidate) : Bool :=
  c.rating.isNone || decide (min_rating ≤ c.rating.getD 0)

/-- Step 1 of the sampler: the list comprehension filtering on rating, region and month. -/
def filteredList (min_rating : ℚ) (months : Option (List ℤ)) (region : Option String)
    (cands : List Candidate) : List Candidate :=
  cands.filter (fun c => ok_rating min_rating c && ok_region region c && ok_month months c)

/-- Step 2: deduplication by `mlid`, first occurrence kept, with the `seen` set
carried as a list of identifiers. -/
def dedupGo : List String → List Candidate → List Candidate
  | _, [] => []
  | seen, c :: cs =>
    if c.mlid ∈ seen then dedupGo seen cs
    else c :: dedupGo (c.mlid :: seen) cs

/-- `seen, deduped = set(), []` loop of `stratified_sample`. -/
def dedupedList (l : List Candidate) : List Candidate := dedupGo [] l

/-- The contributor key used by the capping loop: `c.observer or "_unknown_"`
(Python truthiness: `None` and `""` both map to the shared bucket). -/
def obsKey (c : Candidate) : String :=
  match c.observer with
  | none => "_unknown_"
  | some s => if s = "" then "_unknown_" else s

/-- Step 3: the per-contributor capping loop, carrying the `counts` dictionary. -/
def capGo (cap : ℤ) : (String → ℕ) → List Candidate → List Candidate
  | _, [] => []
  | counts, c :: cs =>
    let obs := obsKey c
    if (counts obs : ℤ) < cap then
      c :: capGo cap (fun k => if k = obs then counts obs + 1 else counts k) cs
    else capGo cap counts cs

/-- `counts, capped = {}, []` loop of `stratified_sample`. -/
def cappedList (cap : ℤ) (l : List Candidate) : List Candidate := capGo cap (fun _ => 0) l

/-- Rating of a candidate, defaulting to 0; only applied to candidates whose
rating is present. -/
def ratingOf (c : Candidate) : ℚ := c.rating.getD 0

/-- The second sort-key component `x.quality_rank or 999999`: an absent rank is
the sentinel 999999, and so is a rank of 0 (falsy in Python). -/
def effRank (c : Candidate) : ℤ :=
  match c.quality_rank with
  | none => 999999
  | some r => if r = 0 then 999999 else r

/-- The key order of `with_rating.sort(key=lambda x: (-x.rating, x.quality_rank or 999999))`:
`a` precedes-or-equals `b` iff `(-rating a, effRank a) ≤ (-rating b, effRank b)`
lexicographically. -/
def ratedLE (a b : Candidate) : Prop :=
  ratingOf b < ratingOf a ∨ (ratingOf b = ratingOf a ∧ effRank a ≤ effRank b)

instance : DecidableRel ratedLE := fun a b => by
  unfold ratedLE; infer_instance

instance : IsTotal Candidate ratedLE := ⟨by
  intro a b
  rcases lt_trichotomy (ratingOf a) (ratingOf b) with h | h | h
  · exact Or.inr (Or.inl h)
  · rcases le_total (effRank a) (effRank b) with h2 | h2
    · exact Or.inl (Or.inr ⟨h.symm, h2⟩)
    · exact Or.inr (Or.inr ⟨h, h2⟩)
  · exact Or.inl (Or.inl h)⟩

instance : IsTrans Candidate ratedLE := ⟨by
  intro a b c hab hbc
  rcases hab with h1 | ⟨h1, h1r⟩
  · rcases hbc with h2 | ⟨h2, h2r⟩
    · exact Or.inl (lt_trans h2 h1)
    · exact Or.inl (lt_of_eq_of_lt h2 h1)
  · rcases hbc with h2 | ⟨h2, h2r⟩
    · exact Or.inl (lt_of_lt_of_eq h2 h1)
    · exact Or.inr ⟨h2.trans h1, le_trans h1r h2r⟩⟩

/-- Step 6: the stable sort of the rated pool.  Python `list.sort` is stable, and a
stable sort by a total key order is unique, so insertion sort over the reflexive
key order produces the same list. -/
def sortRated (l : List Candidate) : List Candidate := List.insertionSort ratedLE l

/-- Step 5: `[c for c in capped if c.rating is not None]`. -/
def withRatingOf (l : List Candidate) : List Candidate := l.filter (fun c => c.rating.isSome)

/-- Step 5: `[c for c in capped if c.rating is None]`. -/
def noRatingOf (l : List Candidate) : List Candidate := l.filter (fun c => !c.rating.isSome)

/-- Python 3 `round` on rationals: round half to even (banker's rounding).
The fractional part of `q` is below, above, or exactly 1/2 according as `q` is
below, above, or equal to `floor q + 1/2 = (2 * floor q + 1) / 2`. -/
def pyRound (q : ℚ) : ℤ :=
  if q < Rat.divInt (2 * q.floor + 1) 2 then q.floor
  else if Rat.divInt (2 * q.floor + 1) 2 < q then q.floor + 1
  else if q.floor % 2 = 0 then q.floor else q.floor + 1

/-- Step 7: `top_cut = max(1, int(round(limit * (1 - low_quality_frac))))`. -/
def topCut (limit : ℤ) (frac : ℚ) : ℤ := max 1 (pyRound ((limit : ℚ) * (1 - frac)))

/-- The width `max(top_cut * 3, top_cut + 5)` of the top window, as a natural number. -/
def topWidth (tc : ℤ) : ℕ := (max (tc * 3) (tc + 5)).toNat

/-- Python `l[:n]` for an arbitrary (possibly negative) integer bound `n`. -/
def pySlice {α : Type} (n : ℤ) (l : List α) : List α :=
  if 0 ≤ n then l.take n.toNat
  else l.take (((l.length : ℤ) + n).toNat)

/-- Stream-driven shuffle: repeatedly draw the next number from the stream `r`
(at the running counter), select the entry at that index modulo the remaining
length, and recurse on the rest.  The `fuel` argument is the initial length. -/
def shuffleGo {α : Type} (r : ℕ → ℕ) : ℕ → ℕ → List α → List α
  | _, 0, _ => []
  | _, _ + 1, [] => []
  | ctr, fuel + 1, x :: xs =>
    let j := r ctr % (x :: xs).length
    (x :: xs).get ⟨j, Nat.mod_lt _ (Nat.succ_pos _)⟩ ::
      shuffleGo r (ctr + 1) fuel ((x :: xs).eraseIdx j)

/-- `rng.shuffle`, consuming stream values starting at counter `ctr`. -/
def shuffle {α : Type} (r : ℕ → ℕ) (ctr : ℕ) (l : List α) : List α :=
  shuffleGo r ctr l.length l

/-- Steps 8–12 of `stratified_sample`, applied to the already computed `top_cut`
value `tc`, the sorted rated pool `wr` and the unrated pool `nr`. -/
def sampleCore (limit : ℤ) (tc : ℤ) (r : ℕ → ℕ) (wr nr : List Candidate) : List Candidate :=
  let top_pool := wr.take (topWidth tc)
  let top_pool_s := shuffle r 0 top_pool
  let top_pick := top_pool_s.take (min top_pool_s.length tc.toNat)
  let realistic_pool := wr.drop top_pool.length ++ nr
  let realistic_pool_s := shuffle r top_pool.length realistic_pool
  let realistic_need := (max 0 (limit - (top_pick.length : ℤ))).toNat
  let realistic_pick := realistic_pool_s.take realistic_need
  let picks := top_pick ++ realistic_pick
  pySlice limit (shuffle r (top_pool.length + realistic_pool.length) picks)

/-- The pool surviving filter, deduplication and per-contributor capping. -/
def cappedOf (min_rating : ℚ) (mpo : ℤ) (months : Option (List ℤ)) (region : Option String)
    (cands : List Candidate) : List Candidate :=
  cappedList mpo (dedupedList (filteredList min_rating months region cands))

/-- The full `stratified_sample(cands, limit, min_rating, max_per_observer, months,
region, low_quality_frac, rng)` from `fetch_photos.py`. -/
def stratified_sample (cands : List Candidate) (limit : ℤ) (min_rating : ℚ)
    (max_per_observer : ℤ) (months : Option (List ℤ)) (region : Option String)
    (low_quality_frac : ℚ) (r : ℕ → ℕ) : List Candidate :=
  let capped := cappedOf min_rating max_per_observer months region cands
  if capped = [] then []
  else
    sampleCore limit (topCut limit low_quality_frac) r
      (sortRated (withRatingOf capped)) (noRatingOf capped)

/-! ### Concrete candidates for counterexamples, scenarios and witnesses -/

/-- A candidate with identifier and contributor both `s`, a given rating, and all
other fields absent. -/
def plainCand (s : String) (q : Option ℚ) : Candidate :=
  ⟨s, q, some s, none, none, none, none, none⟩

/-- The ten-candidate scenario of the spec: ratings [5,5,5,4,4,3,3,2,2,None], all
contributors and identifiers distinct, no region, date, month or rank. -/
def scenarioCands : List Candidate :=
  [plainCand "c1" (some 5), plainCand "c2" (some 5), plainCand "c3" (some 5),
   plainCand "c4" (some 4), plainCand "c5" (some 4), plainCand "c6" (some 3),
   plainCand "c7" (some 3), plainCand "c8" (some 2), plainCand "c9" (some 2),
   plainCand "c10" none]

/-- The five rated survivors of the scenario filter, already in sorted order. -/
def fiveRated : List Candidate :=
  [plainCand "c1" (some 5), plainCand "c2" (some 5), plainCand "c3" (some 5),
   plainCand "c4" (some 4), plainCand "c5" (some 4)]

/-- Four rated candidates with distinct identifiers and contributors. -/
def cexC1 : List Candidate :=
  [plainCand "d1" (some 5), plainCand "d2" (some 4), plainCand "d3" (some 3),
   plainCand "d4" (some 2)]

/-- A candidate with rating 5 and source rank 1000000. -/
def cA6 : Candidate := ⟨"a", some 5, none, none, none, none, some 1000000, none⟩

/-- A candidate with rating 5 and an absent source rank. -/
def cB6 : Candidate := ⟨"b", some 5, none, none, none, none, none, none⟩

/-- A candidate with rating 4, region `xUSy` and month 5, for the filter witness. -/
def c4w : Candidate := ⟨"w", some 4, some "obsW", some "xUSy", none, some 5, none, none⟩

open List

/-! ### Helper lemmas: rounding -/

theorem floor_cast_le (q : ℚ) : (q.floor : ℚ) ≤ q := Rat.le_floor.mp le_rfl

theorem floor_le_of_le {q : ℚ} {n : ℤ} (h : q ≤ (n : ℚ)) : q.floor ≤ n := by
  by_contra hc
  have h1 : n + 1 ≤ q.floor := by omega
  have h2 : ((n + 1 : ℤ) : ℚ) ≤ q := Rat.le_floor.mp h1
  have h3 : (n : ℚ) < ((n + 1 : ℤ) : ℚ) := by push_cast; linarith
  linarith

theorem pyRound_le {q : ℚ} {n : ℤ} (h : q ≤ (n : ℚ)) : pyRound q ≤ n := by
  have hfl : (q.floor : ℚ) ≤ q := floor_cast_le q
  have hf : q.floor ≤ n := floor_le_of_le h
  unfold pyRound
  split_ifs with h1 h2 h3
  · exact hf
  · rw [Rat.divInt_eq_div] at h2
    have hh : (q.floor : ℚ) + 1/2 < q := by push_cast at h2 ⊢; linarith
    have hlt : (q.floor : ℚ) < (n : ℚ) := by linarith
    have : q.floor < n := by exact_mod_cast hlt
    omega
  · exact hf
  · rw [Rat.divInt_eq_div] at h1 h2
    have hq : q = (q.floor : ℚ) + 1/2 := by push_cast at h1 h2 ⊢; linarith
    have h4 : (q.floor : ℚ) + 1/2 ≤ (n : ℚ) := by rw [← hq]; exact h
    have h5 : (q.floor : ℚ) < (n : ℚ) := by linarith
    have : q.floor < n := by exact_mod_cast h5
    omega

theorem one_le_topCut (limit : ℤ) (frac : ℚ) : 1 ≤ topCut limit frac := le_max_left _ _

theorem topCut_le_limit {limit : ℤ} {frac : ℚ} (h1 : 1 ≤ limit) (h0 : 0 ≤ frac) :
    topCut limit frac ≤ limit := by
  refine max_le h1 (pyRound_le ?_)
  have hl : (0 : ℚ) ≤ (limit : ℚ) := by exact_mod_cast (by omega : (0 : ℤ) ≤ limit)
  nlinarith

theorem topCut_of_nonpos {limit : ℤ} {frac : ℚ} (hl : limit ≤ 0) (h0 : 0 ≤ frac)
    (h1 : frac < 1) : topCut limit frac = 1 := by
  have hle : pyRound ((limit : ℚ) * (1 - frac)) ≤ 1 := by
    apply pyRound_le
    have hq : ((limit : ℤ) : ℚ) ≤ 0 := by exact_mod_cast hl
    have hfe : (0 : ℚ) ≤ 1 - frac := by linarith
    have hmul : (0 : ℚ) ≤ (-(limit : ℚ)) * (1 - frac) := mul_nonneg (by linarith) hfe
    push_cast
    nlinarith
  unfold topCut
  omega

/-! ### Helper lemmas: the stream-driven shuffle -/

theorem cons_get_eraseIdx_perm {α : Type} (l : List α) :
    ∀ (i : ℕ) (h : i < l.length), l.get ⟨i, h⟩ :: l.eraseIdx i ~ l := by
  induction l with
  | nil => intro i h; simp at h
  | cons x xs ih =>
    intro i h
    cases i with
    | zero => simp
    | succ i =>
      have h' : i < xs.length := by simpa using h
      calc (x :: xs).get ⟨i + 1, h⟩ :: (x :: xs).eraseIdx (i + 1)
          = xs.get ⟨i, h'⟩ :: x :: xs.eraseIdx i := by simp [List.eraseIdx]
        _ ~ x :: xs.get ⟨i, h'⟩ :: xs.eraseIdx i := List.Perm.swap x _ _
        _ ~ x :: xs := (ih i h').cons x

theorem shuffleGo_perm {α : Type} (r : ℕ → ℕ) :
    ∀ (fuel ctr : ℕ) (l : List α), l.length ≤ fuel → shuffleGo r ctr fuel l ~ l := by
  intro fuel
  induction fuel with
  | zero =>
    intro ctr l h
    have hnil : l = [] := List.eq_nil_of_length_eq_zero (by omega)
    subst hnil; rfl
  | succ n ih =>
    intro ctr l h
    match l with
    | [] => rfl
    | x :: xs =>
      have hj : r ctr % (x :: xs).length < (x :: xs).length := Nat.mod_lt _ (Nat.succ_pos _)
      have hlen : ((x :: xs).eraseIdx (r ctr % (x :: xs).length)).length ≤ n := by
        rw [List.length_eraseIdx_of_lt hj]
        simpa using h
      simp only [shuffleGo]
      exact ((ih (ctr + 1) _ hlen).cons _).trans (cons_get_eraseIdx_perm _ _ hj)

theorem shuffle_perm {α : Type} (r : ℕ → ℕ) (ctr : ℕ) (l : List α) : shuffle r ctr l ~ l :=
  shuffleGo_perm r l.length ctr l le_rfl

theorem shuffle_length {α : Type} (r : ℕ → ℕ) (ctr : ℕ) (l : List α) :
    (shuffle r ctr l).length = l.length :=
  (shuffle_perm r ctr l).length_eq

/-! ### Helper lemmas: list plumbing -/

theorem take_append_drop_length_take {α : Type} (n : ℕ) (l : List α) :
    l.take n ++ l.drop ((l.take n).length) = l := by
  rw [List.length_take]
  rcases le_or_lt n l.length with h | h
  · rw [min_eq_left h, List.take_append_drop]
  · rw [min_eq_right h.le, List.drop_length, List.append_nil, List.take_of_length_le h.le]

theorem pySlice_sublist {α : Type} (n : ℤ) (l : List α) : pySlice n l <+ l := by
  unfold pySlice
  split_ifs <;> exact List.take_sublist _ _

/-! ### Helper lemmas: multiset bounds through the pipeline -/

theorem coe_take_le {α : Type} (l : List α) (n : ℕ) :
    ((l.take n : List α) : Multiset α) ≤ (l : Multiset α) :=
  Multiset.coe_le.mpr (List.take_sublist n l).subperm

theorem coe_shuffle_eq {α : Type} (r : ℕ → ℕ) (ctr : ℕ) (l : List α) :
    ((shuffle r ctr l : List α) : Multiset α) = (l : Multiset α) :=
  Multiset.coe_eq_coe.mpr (shuffle_perm r ctr l)

theorem coe_pySlice_le {α : Type} (n : ℤ) (l : List α) :
    ((pySlice n l : List α) : Multiset α) ≤ (l : Multiset α) :=
  Multiset.coe_le.mpr (pySlice_sublist n l).subperm

theorem sampleCore_le (limit tc : ℤ) (r : ℕ → ℕ) (wr nr : List Candidate) :
    ((sampleCore limit tc r wr nr : List Candidate) : Multiset Candidate)
      ≤ ((wr ++ nr : List Candidate) : Multiset Candidate) := by
  simp only [sampleCore]
  refine le_trans (coe_pySlice_le _ _) ?_
  rw [coe_shuffle_eq, ← Multiset.coe_add]
  have h2 : (((shuffle r 0 (wr.take (topWidth tc))).take
        (min (shuffle r 0 (wr.take (topWidth tc))).length (topCut limit tc).toNat) : List Candidate) :
        Multiset Candidate) ≤ ((wr.take (topWidth tc) : List Candidate) : Multiset Candidate) :=
    le_trans (coe_take_le _ _) (le_of_eq (coe_shuffle_eq _ _ _))
  calc _ ≤ ((wr.take (topWidth tc) : List Candidate) : Multiset Candidate)
        + (((wr.drop ((wr.take (topWidth tc)).length) ++ nr : List Candidate) : List Candidate) :
            Multiset Candidate) := by
        exact add_le_add (le_trans (coe_take_le _ _) (le_of_eq (coe_shuffle_eq _ _ _)))
          (le_trans (coe_take_le _ _) (le_of_eq (coe_shuffle_eq _ _ _)))
    _ = ((wr ++ nr : List Candidate) : Multiset Candidate) := by
        rw [Multiset.coe_add, ← List.append_assoc, take_append_drop_length_take]

theorem stratified_sample_le (cands : List Candidate) (limit : ℤ) (mr : ℚ) (mpo : ℤ)
    (months : Option (List ℤ)) (region : Option String) (frac : ℚ) (r : ℕ → ℕ) :
    ((stratified_sample cands limit mr mpo months region frac r : List Candidate) :
        Multiset Candidate)
      ≤ ((cappedOf mr mpo months region cands : List Candidate) : Multiset Candidate) := by
  rw [stratified_sample]
  split_ifs with h
  · simp
  · refine le_trans (sampleCore_le _ _ _ _ _) (le_of_eq ?_)
    rw [← Multiset.coe_add]
    have h1 : ((sortRated (withRatingOf (cappedOf mr mpo months region cands)) : List Candidate) :
        Multiset Candidate)
        = ((withRatingOf (cappedOf mr mpo months region cands) : List Candidate) :
            Multiset Candidate) :=
      Multiset.coe_eq_coe.mpr (List.perm_insertionSort _ _)
    rw [h1, Multiset.coe_add, withRatingOf, noRatingOf]
    exact Multiset.coe_eq_coe.mpr
      (List.filter_append_perm (fun c => c.rating.isSome) (cappedOf mr mpo months region cands))

/-! ### Helper lemmas: deduplication and capping -/

theorem dedupGo_sublist : ∀ (seen : List String) (l : List Candidate),
    List.Sublist (dedupGo seen l) l := by
  intro seen l
  induction l generalizing seen with
  | nil => simp [dedupGo]
  | cons c cs ih =>
    simp only [dedupGo]
    split_ifs with h
    · exact (ih seen).cons c
    · exact (ih (c.mlid :: seen)).cons₂ c

theorem capGo_sublist (cap : ℤ) : ∀ (counts : String → ℕ) (l : List Candidate),
    List.Sublist (capGo cap counts l) l := by
  intro counts l
  induction l generalizing counts with
  | nil => simp [capGo]
  | cons c cs ih =>
    simp only [capGo]
    split_ifs with h
    · exact (ih _).cons₂ c
    · exact (ih _).cons c

theorem dedupGo_nodup : ∀ (seen : List String) (l : List Candidate),
    ((dedupGo seen l).map Candidate.mlid).Nodup
    ∧ ∀ s ∈ (dedupGo seen l).map Candidate.mlid, s ∉ seen := by
  intro seen l
  induction l generalizing seen with
  | nil => simp [dedupGo]
  | cons c cs ih =>
    simp only [dedupGo]
    split_ifs with h
    · exact ih seen
    · obtain ⟨h1, h2⟩ := ih (c.mlid :: seen)
      refine ⟨?_, ?_⟩
      · simp only [List.map_cons, List.nodup_cons]
        exact ⟨fun hmem => (h2 _ hmem) (List.mem_cons_self _ _), h1⟩
      · intro s hs
        simp only [List.map_cons, List.mem_cons] at hs
        rcases hs with rfl | hs
        · exact h
        · exact fun hseen => (h2 s hs) (List.mem_cons_of_mem _ hseen)

theorem dedupedList_mlid_nodup (l : List Candidate) :
    ((dedupedList l).map Candidate.mlid).Nodup :=
  (dedupGo_nodup [] l).1

theorem capGo_countP_le (cap : ℤ) (o : String) :
    ∀ (counts : String → ℕ) (l : List Candidate),
      (counts o : ℤ) + ((capGo cap counts l).countP (fun c => obsKey c == o) : ℤ)
        ≤ max cap (counts o) := by
  intro counts l
  induction l generalizing counts with
  | nil => simpa [capGo] using le_max_right cap ((counts o : ℤ))
  | cons c cs ih =>
    simp only [capGo]
    split_ifs with h
    · rw [List.countP_cons]
      by_cases ho : obsKey c = o
      · subst ho
        have hih := ih (fun k => if k = obsKey c then counts (obsKey c) + 1 else counts k)
        simp only at hih
        rw [if_pos trivial] at hih
        have hkey : (obsKey c == obsKey c) = true := by simp
        rw [hkey, if_pos rfl]
        push_cast at hih ⊢
        omega
      · have hkey : (obsKey c == o) = false := by simp [ho]
        have hih := ih (fun k => if k = obsKey c then counts (obsKey c) + 1 else counts k)
        simp only at hih
        rw [if_neg (fun hx : o = obsKey c => ho hx.symm)] at hih
        rw [hkey, if_neg Bool.false_ne_true]
        push_cast at hih ⊢
        omega
    · exact ih counts

theorem cappedList_countP_le {cap : ℤ} (hcap : 0 ≤ cap) (o : String) (l : List Candidate) :
    (((cappedList cap l).countP (fun c => obsKey c == o) : ℕ) : ℤ) ≤ cap := by
  have h := capGo_countP_le cap o (fun _ => 0) l
  simpa [max_eq_left hcap] using h

/-! ### Helper lemmas: membership chains -/

theorem of_mem_filteredList {mr : ℚ} {months : Option (List ℤ)} {region : Option String}
    {cands : List Candidate} {c : Candidate} (h : c ∈ filteredList mr months region cands) :
    c ∈ cands ∧ ok_rating mr c = true ∧ ok_region region c = true ∧ ok_month months c = true := by
  rw [filteredList, List.mem_filter] at h
  obtain ⟨hmem, hp⟩ := h
  simp only [Bool.and_eq_true] at hp
  exact ⟨hmem, hp.1.1, hp.1.2, hp.2⟩

theorem mem_capped_of_mem_sample {cands : List Candidate} {limit : ℤ} {mr : ℚ} {mpo : ℤ}
    {months : Option (List ℤ)} {region : Option String} {frac : ℚ} {r : ℕ → ℕ} {c : Candidate}
    (h : c ∈ stratified_sample cands limit mr mpo months region frac r) :
    c ∈ cappedOf mr mpo months region cands := by
  have hle := stratified_sample_le cands limit mr mpo months region frac r
  have hm : c ∈ ((cappedOf mr mpo months region cands : List Candidate) : Multiset Candidate) :=
    Multiset.mem_of_le hle (by simpa using h)
  simpa using hm

theorem mem_filtered_of_mem_capped {mr : ℚ} {mpo : ℤ} {months : Option (List ℤ)}
    {region : Option String} {cands : List Candidate} {c : Candidate}
    (h : c ∈ cappedOf mr mpo months region cands) :
    c ∈ filteredList mr months region cands := by
  have h1 : c ∈ dedupedList (filteredList mr months region cands) :=
    (capGo_sublist mpo (fun _ => 0) _).subset h
  exact (dedupGo_sublist [] _).subset h1

/-! ### Helper lemmas: the sort order -/

theorem sortRated_sorted (l : List Candidate) : List.Pairwise ratedLE (sortRated l) :=
  List.sorted_insertionSort ratedLE l

theorem sortRated_perm (l : List Candidate) : List.Perm (sortRated l) l :=
  List.perm_insertionSort ratedLE l

theorem sortRated_length (l : List Candidate) : (sortRated l).length = l.length :=
  (sortRated_perm l).length_eq

/-! ### Helper lemmas: lengths -/

theorem withRating_add_noRating_length (l : List Candidate) :
    (withRatingOf l).length + (noRatingOf l).length = l.length := by
  have h := (List.filter_append_perm (fun c => c.rating.isSome) l).length_eq
  simpa [withRatingOf, noRatingOf] using h

theorem sampleCore_length (limit tc : ℤ) (r : ℕ → ℕ) (wr nr : List Candidate)
    (h : 0 ≤ limit) :
    (sampleCore limit tc r wr nr).length =
      min limit.toNat
        (min (min (topWidth tc) wr.length) tc.toNat
          + (wr.length + nr.length - min (topWidth tc) wr.length)) := by
  simp only [sampleCore, pySlice]
  rw [if_pos h]
  simp only [List.length_take, shuffle_length, List.length_append, List.length_drop]
  omega

theorem shuffle_singleton {α : Type} (r : ℕ → ℕ) (ctr : ℕ) (x : α) :
    shuffle r ctr [x] = [x] := by
  simp [shuffle, shuffleGo, Nat.mod_one]

theorem pyRound_intCast (n : ℤ) : pyRound ((n : ℤ) : ℚ) = n := by
  have hf : ((n : ℚ)).floor = n := by
    rw [show ((n : ℚ)).floor = ⌊(n : ℚ)⌋ from rfl, Int.floor_intCast]
  rw [pyRound, hf,
    if_pos (show ((n : ℚ)) < Rat.divInt (2 * n + 1) 2 by
      rw [Rat.divInt_eq_div]; push_cast; linarith)]

theorem topCut_zero_frac (n : ℤ) : topCut n 0 = max 1 n := by
  rw [topCut, show (1 - (0 : ℚ)) = 1 from by norm_num, mul_one, pyRound_intCast]

theorem topCut_four : topCut 4 (Rat.divInt 3 10) = 3 := by
  have h : ((4 : ℤ) : ℚ) * (1 - Rat.divInt 3 10) = Rat.divInt 14 5 := by
    rw [Rat.divInt_eq_div, Rat.divInt_eq_div]; norm_num
  rw [topCut, h]
  decide

theorem pySlice_nonpos_small {α : Type} {n : ℤ} {l : List α} (hn : n ≤ 0)
    (hlen : l.length ≤ 1) : pySlice n l = [] := by
  unfold pySlice
  split_ifs with h
  · have hn0 : n = 0 := le_antisymm hn h
    subst hn0
    simp
  · have h0 : ((l.length : ℤ) + n).toNat = 0 := by omega
    rw [h0, List.take_zero]

theorem sampleCore_nonpos (limit : ℤ) (r : ℕ → ℕ) (wr nr : List Candidate) (hl : limit ≤ 0) :
    sampleCore limit 1 r wr nr = [] := by
  simp only [sampleCore]
  have ht : ((shuffle r 0 (wr.take (topWidth 1))).take
      (min (shuffle r 0 (wr.take (topWidth 1))).length (Int.toNat 1))).length ≤ 1 := by
    rw [List.length_take]
    omega
  have hneed : (max 0 (limit -
      (((shuffle r 0 (wr.take (topWidth 1))).take
        (min (shuffle r 0 (wr.take (topWidth 1))).length (Int.toNat 1))).length : ℤ))).toNat
      = 0 := by omega
  rw [hneed, List.take_zero, List.append_nil]
  apply pySlice_nonpos_small hl
  rw [shuffle_length]
  exact ht

theorem cappedOf_mlid_nodup (mr : ℚ) (mpo : ℤ) (months : Option (List ℤ))
    (region : Option String) (cands : List Candidate) :
    ((cappedOf mr mpo months region cands).map Candidate.mlid).Nodup := by
  have hsub : List.Sublist (cappedOf mr mpo months region cands)
      (dedupedList (filteredList mr months region cands)) :=
    capGo_sublist mpo (fun _ => 0) _
  exact (dedupedList_mlid_nodup _).sublist (hsub.map Candidate.mlid)

theorem sample_mlid_nodup (cands : List Candidate) (limit : ℤ) (mr : ℚ) (mpo : ℤ)
    (months : Option (List ℤ)) (region : Option String) (frac : ℚ) (r : ℕ → ℕ) :
    ((stratified_sample cands limit mr mpo months region frac r).map Candidate.mlid).Nodup := by
  have hle := stratified_sample_le cands limit mr mpo months region frac r
  have hmap : Multiset.map Candidate.mlid
      ((stratified_sample cands limit mr mpo months region frac r : List Candidate) :
        Multiset Candidate)
      ≤ Multiset.map Candidate.mlid
        ((cappedOf mr mpo months region cands : List Candidate) : Multiset Candidate) :=
    Multiset.map_le_map hle
  rw [Multiset.map_coe, Multiset.map_coe] at hmap
  have hnd : ((((cappedOf mr mpo months region cands).map Candidate.mlid) : List String) :
      Multiset String).Nodup := by
    rw [Multiset.coe_nodup]
    exact cappedOf_mlid_nodup mr mpo months region cands
  have hout := Multiset.nodup_of_le hmap hnd
  rwa [Multiset.coe_nodup] at hout

/-! ### Claims -/

/-- C2: for every input candidate sequence, constraints (positive limit), and
random source, the sequence returned by `stratified_sample` has length at most
`limit`. -/
theorem C2_output_length_le_limit (cands : List Candidate) (limit : ℤ) (mr : ℚ) (mpo : ℤ)
    (months : Option (List ℤ)) (region : Option String) (frac : ℚ) (r : ℕ → ℕ)
    (hl : 0 < limit) :
    ((stratified_sample cands limit mr mpo months region frac r).length : ℤ) ≤ limit := by
  simp only [stratified_sample]
  split_ifs with h
  · simp only [List.length_nil]
    omega
  · rw [sampleCore_length _ _ _ _ _ (by omega)]
    omega

theorem C2_output_length_le_limit_witness :
    (0 : ℤ) < 4
    ∧ ((stratified_sample cexC1 4 0 9 none none (Rat.divInt 3 10)
        (fun _ => 0)).length : ℤ) ≤ 4 :=
  ⟨by norm_num,
   C2_output_length_le_limit cexC1 4 0 9 none none (Rat.divInt 3 10) (fun _ => 0)
     (by norm_num)⟩

/-- C3: for every input, the sequence returned by `stratified_sample` contains no
two candidates with the same identifier (`mlid`). -/
theorem C3_no_duplicate_ids (cands : List Candidate) (limit : ℤ) (mr : ℚ) (mpo : ℤ)
    (months : Option (List ℤ)) (region : Option String) (frac : ℚ) (r : ℕ → ℕ) :
    List.Pairwise (fun a b => a.mlid ≠ b.mlid)
      (stratified_sample cands limit mr mpo months region frac r) := by
  have h := sample_mlid_nodup cands limit mr mpo months region frac r
  exact List.pairwise_map.mp h

/-- C7: `stratified_sample` is deterministic: two invocations with identical
candidate sequences, identical constraints, and random sources producing the same
stream of draws (identically seeded) return identical output sequences. -/
theorem C7_deterministic (cands : List Candidate) (limit : ℤ) (mr : ℚ) (mpo : ℤ)
    (months : Option (List ℤ)) (region : Option String) (frac : ℚ) (r1 r2 : ℕ → ℕ)
    (h : ∀ n, r1 n = r2 n) :
    stratified_sample cands limit mr mpo months region frac r1 =
      stratified_sample cands limit mr mpo months region frac r2 := by
  have hr : r1 = r2 := funext h
  rw [hr]

theorem C7_deterministic_witness :
    (∀ n : ℕ, (fun k : ℕ => k + 0) n = (fun k : ℕ => k) n)
    ∧ stratified_sample scenarioCands 4 (Rat.divInt 7 2) 2 none none (Rat.divInt 3 10)
        (fun k => k + 0) =
      stratified_sample scenarioCands 4 (Rat.divInt 7 2) 2 none none (Rat.divInt 3 10)
        (fun k => k) :=
  ⟨fun n => Nat.add_zero n,
   C7_deterministic scenarioCands 4 (Rat.divInt 7 2) 2 none none (Rat.divInt 3 10)
     (fun k => k + 0) (fun k => k) (fun n => Nat.add_zero n)⟩

/-- C8: for every candidate sequence and every `limit ≤ 0` (with the low-quality
fraction in `[0, 1)` as specified), `stratified_sample` returns the empty
sequence as a normal result. -/
theorem C8_nonpositive_limit (cands : List Candidate) (limit : ℤ) (mr : ℚ) (mpo : ℤ)
    (months : Option (List ℤ)) (region : Option String) (frac : ℚ) (r : ℕ → ℕ)
    (hl : limit ≤ 0) (h0 : 0 ≤ frac) (h1 : frac < 1) :
    stratified_sample cands limit mr mpo months region frac r = [] := by
  simp only [stratified_sample]
  split_ifs with h
  · rfl
  · rw [topCut_of_nonpos hl h0 h1]
    exact sampleCore_nonpos limit r _ _ hl

theorem C8_nonpositive_limit_witness :
    (-1 : ℤ) ≤ 0 ∧ (0 : ℚ) ≤ 0 ∧ (0 : ℚ) < 1
    ∧ stratified_sample cexC1 (-1) 0 9 none none 0 (fun _ => 0) = [] :=
  ⟨by norm_num, by norm_num, by norm_num,
   C8_nonpositive_limit cexC1 (-1) 0 9 none none 0 (fun _ => 0)
     (by norm_num) (by norm_num) (by norm_num)⟩

/-- C10: for every input with `limit ≥ 1` where at least one candidate survives
the filter, deduplication and per-contributor capping, the output of
`stratified_sample` is non-empty. -/
theorem C10_nonempty (cands : List Candidate) (limit : ℤ) (mr : ℚ) (mpo : ℤ)
    (months : Option (List ℤ)) (region : Option String) (frac : ℚ) (r : ℕ → ℕ)
    (hl : 1 ≤ limit) (hcap : cappedOf mr mpo months region cands ≠ []) :
    stratified_sample cands limit mr mpo months region frac r ≠ [] := by
  simp only [stratified_sample]
  rw [if_neg hcap]
  have hlen := sampleCore_length limit (topCut limit frac) r
    (sortRated (withRatingOf (cappedOf mr mpo months region cands)))
    (noRatingOf (cappedOf mr mpo months region cands)) (by omega)
  rw [sortRated_length] at hlen
  have hpart := withRating_add_noRating_length (cappedOf mr mpo months region cands)
  have htc := one_le_topCut limit frac
  have hW : 1 ≤ topWidth (topCut limit frac) := by
    unfold topWidth
    omega
  have hpos : 0 < (cappedOf mr mpo months region cands).length := List.length_pos.mpr hcap
  apply List.length_pos.mp
  rw [hlen]
  omega

theorem C10_nonempty_witness :
    (1 : ℤ) ≤ 4 ∧ cappedOf 0 9 none none cexC1 ≠ []
    ∧ stratified_sample cexC1 4 0 9 none none (Rat.divInt 3 10) (fun _ => 0) ≠ [] :=
  ⟨by norm_num, by decide,
   C10_nonempty cexC1 4 0 9 none none (Rat.divInt 3 10) (fun _ => 0)
     (by norm_num) (by decide)⟩

/-- C5: no contributor key occurs more than `max_per_observer` times among the
output candidates (candidates with an absent contributor all count into the shared
`"_unknown_"` bucket); in particular, if all candidates share one contributor key
and `max_per_observer = 1`, the output has at most one element regardless of
`limit`. -/
theorem C5_contributor_cap (cands : List Candidate) (limit : ℤ) (mr : ℚ) (mpo : ℤ)
    (months : Option (List ℤ)) (region : Option String) (frac : ℚ) (r : ℕ → ℕ)
    (hcap : 0 ≤ mpo) :
    (∀ o : String,
        (((stratified_sample cands limit mr mpo months region frac r).countP
            (fun c => obsKey c == o)) : ℤ) ≤ mpo)
    ∧ (∀ k : String, (∀ c ∈ cands, obsKey c = k) → mpo = 1 →
        (stratified_sample cands limit mr mpo months region frac r).length ≤ 1) := by
  have hle := stratified_sample_le cands limit mr mpo months region frac r
  have hcount : ∀ o : String,
      (stratified_sample cands limit mr mpo months region frac r).countP
          (fun c => obsKey c == o)
        ≤ (cappedOf mr mpo months region cands).countP (fun c => obsKey c == o) := by
    intro o
    exact List.Subperm.countP_le (fun c => obsKey c == o) (Multiset.coe_le.mp hle)
  refine ⟨?_, ?_⟩
  · intro o
    have h1 := hcount o
    have h2 : (((cappedOf mr mpo months region cands).countP (fun c => obsKey c == o)) : ℤ)
        ≤ mpo := cappedList_countP_le hcap o (dedupedList (filteredList mr months region cands))
    omega
  · intro k hall h1
    have hmem : ∀ c ∈ stratified_sample cands limit mr mpo months region frac r,
        (fun c => obsKey c == k) c = true := by
      intro c hc
      have hin : c ∈ cands :=
        (of_mem_filteredList (mem_filtered_of_mem_capped (mem_capped_of_mem_sample hc))).1
      simp [hall c hin]
    have hlen := List.countP_eq_length.mpr hmem
    have h2 := hcount k
    have h3 : (((cappedOf mr mpo months region cands).countP (fun c => obsKey c == k)) : ℤ)
        ≤ mpo := cappedList_countP_le hcap k (dedupedList (filteredList mr months region cands))
    omega

theorem C5_contributor_cap_witness :
    (0 : ℤ) ≤ 2
    ∧ ((∀ o : String,
        (((stratified_sample scenarioCands 4 (Rat.divInt 7 2) 2 none none (Rat.divInt 3 10)
            (fun _ => 0)).countP (fun c => obsKey c == o)) : ℤ) ≤ 2)
      ∧ (∀ k : String, (∀ c ∈ scenarioCands, obsKey c = k) → (2 : ℤ) = 1 →
          (stratified_sample scenarioCands 4 (Rat.divInt 7 2) 2 none none (Rat.divInt 3 10)
            (fun _ => 0)).length ≤ 1)) :=
  ⟨by norm_num,
   C5_contributor_cap scenarioCands 4 (Rat.divInt 7 2) 2 none none (Rat.divInt 3 10)
     (fun _ => 0) (by norm_num)⟩

/-- C4: every output candidate satisfies the three filters: its rating is absent
or at least the minimum rating threshold; if a region constraint is given
(non-empty, matching Python truthiness) and the candidate has a (non-empty)
region, the constraint is a case-insensitive substring of the candidate region;
if a non-empty allowed-months list is given and the candidate has a month, that
month is in the list.  Candidates with an absent rating, region, or month pass
the corresponding filter unconditionally, which the conditional form expresses. -/
theorem C4_filters_hold (cands : List Candidate) (limit : ℤ) (mr : ℚ) (mpo : ℤ)
    (months : Option (List ℤ)) (region : Option String) (frac : ℚ) (r : ℕ → ℕ)
    (c : Candidate) (hc : c ∈ stratified_sample cands limit mr mpo months region frac r) :
    (∀ q : ℚ, c.rating = some q → mr ≤ q)
    ∧ (∀ rs : String, region = some rs → rs ≠ "" →
        ∀ cr : String, c.region = some cr → cr ≠ "" →
          containsSub (lowerChars rs) (lowerChars cr) = true)
    ∧ (∀ ms : List ℤ, months = some ms → ms ≠ [] →
        ∀ m : ℤ, c.month = some m → m ∈ ms) := by
  obtain ⟨-, hr, hreg, hm⟩ :=
    of_mem_filteredList (mem_filtered_of_mem_capped (mem_capped_of_mem_sample hc))
  refine ⟨?_, ?_, ?_⟩
  · intro q hq
    rw [ok_rating, hq] at hr
    simpa using hr
  · intro rs hrs hrsne cr hcr hcrne
    rw [ok_region, hrs, hcr] at hreg
    simpa [strFalsy, hrsne, hcrne] using hreg
  · intro ms hms hmsne m hm2
    rw [ok_month, hms, hm2] at hm
    simpa [listFalsy, hmsne] using hm

theorem C4_filters_hold_witness :
    c4w ∈ stratified_sample [c4w] 1 1 1 (some [5]) (some "us") 0 (fun _ => 0)
    ∧ ((∀ q : ℚ, c4w.rating = some q → (1 : ℚ) ≤ q)
      ∧ (∀ rs : String, (some "us" : Option String) = some rs → rs ≠ "" →
          ∀ cr : String, c4w.region = some cr → cr ≠ "" →
            containsSub (lowerChars rs) (lowerChars cr) = true)
      ∧ (∀ ms : List ℤ, (some [5] : Option (List ℤ)) = some ms → ms ≠ [] →
          ∀ m : ℤ, c4w.month = some m → m ∈ ms)) := by
  have hmem : c4w ∈ stratified_sample [c4w] 1 1 1 (some [5]) (some "us") 0 (fun _ => 0) := by
    simp only [stratified_sample]
    rw [topCut_zero_frac]
    decide
  exact ⟨hmem, C4_filters_hold [c4w] 1 1 1 (some [5]) (some "us") 0 (fun _ => 0) c4w hmem⟩

/-- C6 counterexample: two candidates with equal rating 5, one carrying source
rank 1000000, the other carrying no rank.  The unranked candidate sorts BEFORE
the ranked one (its sentinel key 999999 is smaller than 1000000), refuting the
claim that a candidate with an absent rank sorts after all ranked candidates. -/
theorem C6_counterexample :
    sortRated [cA6, cB6] = [cB6, cA6]
    ∧ sortRated [cA6, cB6] ≠ [cA6, cB6]
    ∧ cA6.rating = cB6.rating
    ∧ cA6.quality_rank = some 1000000
    ∧ cB6.quality_rank = none := by decide

/-- C6 amended: step 6 sorts the rated pool descending by rating with ties broken
ascending by the EFFECTIVE source rank, where an absent rank — and likewise a
rank of 0, which is falsy in Python — is replaced by the fixed sentinel 999999
(not by the maximum possible rank value): the result is pairwise ordered by
`ratedLE` and is a permutation of the rated pool. -/
theorem C6_amended_sorted (cands : List Candidate) (mr : ℚ) (mpo : ℤ)
    (months : Option (List ℤ)) (region : Option String) :
    List.Pairwise ratedLE (sortRated (withRatingOf (cappedOf mr mpo months region cands)))
    ∧ List.Perm (sortRated (withRatingOf (cappedOf mr mpo months region cands)))
      (withRatingOf (cappedOf mr mpo months region cands)) :=
  ⟨sortRated_sorted _, sortRated_perm _⟩

/-- C1 counterexample: four rated candidates, limit 4, `low_quality_frac = 3/10`,
no filtering.  The capped pool has 4 candidates, so the claim predicts output
length `min(4, 4) = 4`; the code returns 3, because `top_cut = 3` and the fourth
candidate sits inside the top window (of width 9) where only `top_cut` picks are
taken, while the realistic pool is empty. -/
theorem C1_counterexample :
    (stratified_sample cexC1 4 0 9 none none (Rat.divInt 3 10) (fun _ => 0)).length ≠
      min (Int.toNat 4) (cappedOf 0 9 none none cexC1).length := by
  rw [stratified_sample, topCut_four]
  decide

/-- C1 amended: for a positive limit, the output length equals
`min(limit, min(w, top_cut) + (pool − w))` where `pool` is the size of the pool
surviving filter/deduplication/capping and `w = min(window, rated-pool-size)` is
the length of the top window (window width `max(3·top_cut, top_cut+5)`).  This
equals the claimed `min(limit, pool)` exactly when the top window does not
strand rated candidates beyond `top_cut`. -/
theorem C1_amended (cands : List Candidate) (limit : ℤ) (mr : ℚ) (mpo : ℤ)
    (months : Option (List ℤ)) (region : Option String) (frac : ℚ) (r : ℕ → ℕ)
    (hl : 0 < limit) :
    (stratified_sample cands limit mr mpo months region frac r).length =
      min limit.toNat
        (min (min (topWidth (topCut limit frac))
              (withRatingOf (cappedOf mr mpo months region cands)).length)
            (topCut limit frac).toNat
          + ((cappedOf mr mpo months region cands).length
            - min (topWidth (topCut limit frac))
                (withRatingOf (cappedOf mr mpo months region cands)).length)) := by
  simp only [stratified_sample]
  split_ifs with h
  · rw [h]
    simp [withRatingOf]
  · rw [sampleCore_length _ _ _ _ _ (by omega), sortRated_length]
    have hpart := withRating_add_noRating_length (cappedOf mr mpo months region cands)
    omega

theorem C1_amended_witness :
    (0 : ℤ) < 4
    ∧ (stratified_sample cexC1 4 0 9 none none (Rat.divInt 3 10) (fun _ => 0)).length =
      min (Int.toNat 4)
        (min (min (topWidth (topCut 4 (Rat.divInt 3 10)))
              (withRatingOf (cappedOf 0 9 none none cexC1)).length)
            (topCut 4 (Rat.divInt 3 10)).toNat
          + ((cappedOf 0 9 none none cexC1).length
            - min (topWidth (topCut 4 (Rat.divInt 3 10)))
                (withRatingOf (cappedOf 0 9 none none cexC1)).length)) :=
  ⟨by norm_num,
   C1_amended cexC1 4 0 9 none none (Rat.divInt 3 10) (fun _ => 0) (by norm_num)⟩

theorem scenario_capped :
    cappedOf (Rat.divInt 7 2) 2 none none scenarioCands =
      fiveRated ++ [plainCand "c10" none] := by decide

theorem scenario_sample_eq (r : ℕ → ℕ) :
    stratified_sample scenarioCands 4 (Rat.divInt 7 2) 2 none none (Rat.divInt 3 10) r =
      sampleCore 4 3 r fiveRated [plainCand "c10" none] := by
  simp only [stratified_sample]
  rw [topCut_four, scenario_capped,
    if_neg (by decide : ¬(fiveRated ++ [plainCand "c10" none] = ([] : List Candidate)))]
  rw [show sortRated (withRatingOf (fiveRated ++ [plainCand "c10" none])) = fiveRated from
    by decide]
  rw [show noRatingOf (fiveRated ++ [plainCand "c10" none]) = [plainCand "c10" none] from
    by decide]

theorem scenario_core_shape (r : ℕ → ℕ) :
    sampleCore 4 3 r fiveRated [plainCand "c10" none] =
      shuffle r 6 ((shuffle r 0 fiveRated).take 3 ++ [plainCand "c10" none]) := by
  simp only [sampleCore]
  rw [show (fiveRated.take (topWidth 3)) = fiveRated from by decide]
  rw [shuffle_length r 0 fiveRated]
  rw [show (min fiveRated.length (Int.toNat 3)) = 3 from by decide]
  rw [show ((max 0 ((4 : ℤ) - (((shuffle r 0 fiveRated).take 3).length : ℤ))).toNat) = 1 from by
    rw [List.length_take, shuffle_length]
    decide]
  rw [show (fiveRated.drop fiveRated.length ++ [plainCand "c10" none]) =
    [plainCand "c10" none] from by decide]
  rw [shuffle_singleton]
  rw [show ([plainCand "c10" none].take 1) = [plainCand "c10" none] from by decide]
  rw [show (fiveRated.length + ([plainCand "c10" none] : List Candidate).length) = 6 from
    by decide]
  rw [pySlice, if_pos (by norm_num : (0 : ℤ) ≤ 4)]
  apply List.take_of_length_le
  rw [shuffle_length, List.length_append, List.length_take, shuffle_length]
  decide

/-- C9: in the concrete scenario of 10 candidates with ratings
[5,5,5,4,4,3,3,2,2,None], all distinct contributors and identifiers, no region
or month constraint, `limit = 4`, `min_rating = 7/2`, `max_per_observer = 2`,
`low_quality_frac = 3/10`, and ANY random stream: the filtered pool has 6
candidates, `top_cut = 3`, exactly 3 output candidates come from the top-rated
window (which here holds exactly the five rated survivors, so they are the rated
outputs) and exactly 1 from the realistic pool (which here is exactly the single
unrated candidate), and the output has length 4 with no duplicate identifiers. -/
theorem C9_scenario (r : ℕ → ℕ) :
    (filteredList (Rat.divInt 7 2) none none scenarioCands).length = 6
    ∧ topCut 4 (Rat.divInt 3 10) = 3
    ∧ (stratified_sample scenarioCands 4 (Rat.divInt 7 2) 2 none none (Rat.divInt 3 10)
        r).countP (fun c => c.rating.isSome) = 3
    ∧ (stratified_sample scenarioCands 4 (Rat.divInt 7 2) 2 none none (Rat.divInt 3 10)
        r).countP (fun c => !c.rating.isSome) = 1
    ∧ (stratified_sample scenarioCands 4 (Rat.divInt 7 2) 2 none none (Rat.divInt 3 10)
        r).length = 4
    ∧ List.Pairwise (fun a b => a.mlid ≠ b.mlid)
        (stratified_sample scenarioCands 4 (Rat.divInt 7 2) 2 none none (Rat.divInt 3 10) r) := by
  have hperm : List.Perm
      (stratified_sample scenarioCands 4 (Rat.divInt 7 2) 2 none none (Rat.divInt 3 10) r)
      ((shuffle r 0 fiveRated).take 3 ++ [plainCand "c10" none]) := by
    rw [scenario_sample_eq r, scenario_core_shape r]
    exact shuffle_perm _ _ _
  have hTmem : ∀ c ∈ (shuffle r 0 fiveRated).take 3, c.rating.isSome = true := by
    intro c hc
    have h1 : c ∈ shuffle r 0 fiveRated := List.take_subset _ _ hc
    have h2 : c ∈ fiveRated := (shuffle_perm r 0 fiveRated).subset h1
    have hall : ∀ c ∈ fiveRated, c.rating.isSome = true := by decide
    exact hall c h2
  have hTlen : ((shuffle r 0 fiveRated).take 3).length = 3 := by
    rw [List.length_take, shuffle_length]
    decide
  refine ⟨by decide, topCut_four, ?_, ?_, ?_, ?_⟩
  · rw [hperm.countP_eq, List.countP_append, List.countP_eq_length.mpr hTmem, hTlen]
    decide
  · rw [hperm.countP_eq, List.countP_append]
    have h0 : ((shuffle r 0 fiveRated).take 3).countP (fun c => !c.rating.isSome) = 0 := by
      rw [List.countP_eq_zero]
      intro c hc
      simp [hTmem c hc]
    rw [h0]
    decide
  · rw [hperm.length_eq, List.length_append, hTlen]
    decide
  · have h := sample_mlid_nodup scenarioCands 4 (Rat.divInt 7 2) 2 none none (Rat.divInt 3 10) r
    exact List.pairwise_map.mp h
